import Mathlib

/-!
Formal model of the support-knowledge ingestion pipeline of
`scripts/ingest_support_knowledge.py`: text normalization (`filter_chunks`
text resolution), keyword extraction (`extract_keywords`), chunk filtering
(`filter_chunks`), embedding enrichment (`generate_embeddings`), document
assembly and bulk indexing (`index_to_opensearch`).

Modelling conventions:
- Python dict fields that the script reads with `.get` are `Option` fields;
  `none` means the key is absent, `some v` means the key is present with
  value `v` (which may itself be a falsy value such as the empty string).
- Python values that can be a string, a list, or `None` are modelled by
  the inductive type `PyVal`.
- Character classes are modelled over ASCII: `Char.isAlphanum`/`Char.isAlpha`
  match the ASCII ranges used by the regex `[a-zA-Z]`; the Unicode word
  characters that Python regexes additionally recognise in non-ASCII text
  are outside the model, as is Unicode-specific case mapping and Unicode
  whitespace in `str.strip`.
- String repr escaping inside `str` of a list is modelled without escape
  sequences (no claim exercises quoting of special characters).
-/

/-- Python value appearing in the `text` / `content` fields of a raw
element from the chunking service: a string, a list, or `None`. -/
inductive PyVal where
  | vStr (s : String)
  | vList (l : List PyVal)
  | vNone

/-- Python truthiness for `PyVal`: empty string, empty list and `None`
are falsy, everything else is truthy. -/
def PyVal.truthy : PyVal → Bool
  | .vStr s => s != ""
  | .vList l => !l.isEmpty
  | .vNone => false

/-- The ASCII apostrophe used by Python repr of strings. -/
def quoteChar : Char := Char.ofNat 39

mutual

/-- Python `repr` of a value (used by `str` on list elements). -/
def pyRepr : PyVal → String
  | .vStr s => String.singleton quoteChar ++ s ++ String.singleton quoteChar
  | .vNone => "None"
  | .vList l => "[" ++ pyReprSep l ++ "]"

/-- Comma-separated reprs of the elements of a list. -/
def pyReprSep : List PyVal → String
  | [] => ""
  | [v] => pyRepr v
  | v :: w :: vs => pyRepr v ++ ", " ++ pyReprSep (w :: vs)

end

/-- Python `str` of a value. -/
def pyStr : PyVal → String
  | .vStr s => s
  | .vNone => "None"
  | .vList l => "[" ++ pyReprSep l ++ "]"

/-- Whitespace characters stripped by Python `str.strip` (ASCII part:
space, tab, newline, carriage return, vertical tab, form feed). -/
def isPySpace (c : Char) : Bool :=
  c == ' ' || c == '\t' || c == '\n' || c == '\r' ||
    c == Char.ofNat 11 || c == Char.ofNat 12

/-- Python `str.strip()`: remove leading and trailing whitespace. -/
def pyStrip (s : String) : String :=
  String.mk (((s.data.dropWhile isPySpace).reverse.dropWhile isPySpace).reverse)

/-- Python `str.lower` restricted to ASCII: map `A`-`Z` to `a`-`z`. -/
def asciiLower (c : Char) : Char :=
  if 'A' ≤ c ∧ c ≤ 'Z' then Char.ofNat (c.toNat + 32) else c

/-- Python `text.split(chr(10))[0]`: the text up to the first newline. -/
def firstLineOf (s : String) : String :=
  String.mk (s.data.takeWhile (fun c => c != '\n'))

/-- Word character for the regex word boundary `\b` (ASCII part):
letters, digits, underscore. -/
def isWordChar (c : Char) : Bool :=
  c.isAlphanum || c == '_'

/-- Word-character test for the character preceding the current scan
position; at the start of the string there is no preceding character. -/
def wordOpt : Option Char → Bool
  | none => false
  | some c => isWordChar c

/-- Word boundary test at the position just before the given suffix:
the boundary holds when the suffix is empty or starts with a non-word
character (the preceding character of interest is always a word
character at the call sites). -/
def boundaryOk : List Char → Bool
  | [] => true
  | c :: _ => !(isWordChar c)

/-- Backtracking step of the regex `[a-zA-Z]\x7b3,\x7d\b` after the greedy
run `run` has been read and `rest` is the remaining input: accept the
current run if it has length at least 3 and a word boundary follows,
otherwise give back one character and retry, failing below length 3.
The result carries the invariant that the accepted run has length at
least 3 and that run and remainder repartition the input. -/
def tryShrink (run rest : List Char) :
    Option { p : List Char × List Char //
             3 ≤ p.1.length ∧ p.1.length + p.2.length = run.length + rest.length } :=
  if h3 : run.length < 3 then none
  else if boundaryOk rest then some ⟨(run, rest), Nat.le_of_not_lt h3, rfl⟩
  else
    match tryShrink run.dropLast (run.getLastD ' ' :: rest) with
    | none => none
    | some ⟨p, hp⟩ =>
        some ⟨p, by
          obtain ⟨hp1, hp2⟩ := hp
          refine ⟨hp1, ?_⟩
          rw [hp2, List.length_dropLast, List.length_cons]
          omega⟩
termination_by run.length
decreasing_by
  simp only [List.length_dropLast]
  omega

/-- Scan of `re.findall` for the pattern `\b[a-zA-Z]\x7b3,\x7d\b` over a
character list, tracking the previous character to decide the leading
word boundary: at each position, if the boundary holds and the current
character is a letter, greedily read the alphabetic run and backtrack
on the trailing boundary; on success emit the match and continue after
it, otherwise advance one character. -/
def findallAux (prev : Option Char) (cs : List Char) : List (List Char) :=
  match cs with
  | [] => []
  | c :: rest =>
    if !(wordOpt prev) && c.isAlpha then
      match tryShrink ((c :: rest).takeWhile Char.isAlpha)
          ((c :: rest).dropWhile Char.isAlpha) with
      | some ⟨(run, remaining), hp⟩ =>
          run :: findallAux (some (run.getLastD c)) remaining
      | none => findallAux (some c) rest
    else findallAux (some c) rest
termination_by cs.length
decreasing_by
  · obtain ⟨hp1, hp2⟩ := hp
    dsimp only at hp1 hp2
    nth_rewrite 2 [← List.length_append] at hp2
    rw [List.takeWhile_append_dropWhile] at hp2
    omega
  · exact Nat.lt_succ_self _
  · exact Nat.lt_succ_self _

/-- The token list `re.findall` of the pattern `\b[a-zA-Z]\x7b3,\x7d\b`
applied to `text.lower()`. -/
def pyFindTokens (text : String) : List String :=
  (findallAux none (text.data.map asciiLower)).map String.mk

/-- Accumulating scan grouping maximal runs of characters satisfying
`p`; `cur` holds the current run in reverse. -/
def runsByGo (p : Char → Bool) (cur : List Char) : List Char → List (List Char)
  | [] => if cur.isEmpty then [] else [cur.reverse]
  | c :: cs =>
    if p c then runsByGo p (c :: cur) cs
    else if cur.isEmpty then runsByGo p [] cs
    else cur.reverse :: runsByGo p [] cs

/-- Maximal runs of characters satisfying `p`, in order. -/
def runsBy (p : Char → Bool) (l : List Char) : List (List Char) :=
  runsByGo p [] l

/-- A run is an acceptable token when it is entirely alphabetic and has
length at least 3. -/
def tokenOk (r : List Char) : Bool :=
  r.all Char.isAlpha && decide (3 ≤ r.length)

/-- Characterisation target for the tokenizer: the maximal word-character
runs of the input that consist entirely of letters and have length at
least 3. -/
def specTokens (cs : List Char) : List (List Char) :=
  (runsBy isWordChar cs).filter tokenOk

/-- Tokenizer described by the specification text: maximal alphabetic
runs of length at least 3, with every non-alphabetic character acting
as a separator. -/
def specClaimedTokens (text : String) : List String :=
  ((runsBy Char.isAlpha (text.data.map asciiLower)).filter
    (fun r => decide (3 ≤ r.length))).map String.mk

/-- Stop-word set of `extract_keywords`, as listed in the source. -/
def stop_words : List String := [
  "the", "a", "an", "and", "or", "but", "in", "on", "at", "to", "for", "of", "with",
  "by", "from", "as", "is", "was", "are", "were", "been", "be", "have", "has", "had",
  "do", "does", "did", "will", "would", "could", "should", "may", "might", "must",
  "can", "this", "that", "these", "those", "i", "you", "he", "she", "it", "we", "they",
  "what", "which", "who", "when", "where", "why", "how", "if", "then", "than",
  "my", "your", "his", "her", "its", "our", "their", "me", "him", "us", "them"]

/-- Accumulating scan keeping the first occurrence of each element;
`seen` holds the elements already emitted. -/
def firstUniqGo (seen : List String) : List String → List String
  | [] => []
  | x :: xs =>
    if seen.contains x then firstUniqGo seen xs
    else x :: firstUniqGo (x :: seen) xs

/-- Keys of a `collections.Counter` built by iterating a list: the
distinct elements in order of first occurrence. -/
def firstUniq (l : List String) : List String :=
  firstUniqGo [] l

/-- Insertion step of a stable descending sort by count: the new pair is
placed before the first pair with a strictly smaller count, hence after
all earlier pairs with an equal count. -/
def insertByCount (x : String × Nat) : List (String × Nat) → List (String × Nat)
  | [] => [x]
  | y :: ys => if y.2 < x.2 then x :: y :: ys else y :: insertByCount x ys

/-- Stable sort by descending count, processing pairs left to right.
This models the ordering produced by `Counter.most_common`, which is a
stable descending sort of the counter items (heapq.nlargest is
documented as equivalent to a stable reverse-sorted slice). -/
def sortByCount (l : List (String × Nat)) : List (String × Nat) :=
  l.foldl (fun acc x => insertByCount x acc) []

/-- Python `Counter(keywords).most_common(n)`: the `n` highest-count
items, ordered by descending count with ties in insertion order. -/
def most_common (n : Nat) (items : List (String × Nat)) : List (String × Nat) :=
  (sortByCount items).take n

/-- The Counter items for a keyword occurrence list: each distinct word
in first-occurrence order, paired with its number of occurrences. -/
def counterItems (keywords : List String) : List (String × Nat) :=
  (firstUniq keywords).map (fun w => (w, keywords.count w))

/-- Keyword occurrences of a text: the regex tokens of the lowercased
text with stop words removed (duplicates kept, text order). -/
def keywordOccurrences (text : String) : List String :=
  (pyFindTokens text).filter (fun w => !(stop_words.contains w))

/-- Model of `extract_keywords`: tokenize the lowercased text, drop stop
words, count occurrences, return the 20 most common words. -/
def extract_keywords (text : String) : List String :=
  let keywords := keywordOccurrences text
  (most_common 20 (counterItems keywords)).map Prod.fst

/-- Metadata value of a raw element: either a dict (modelled with the
two keys the script reads) or some non-dict value, which the script
ignores via its isinstance check. -/
inductive MetaVal where
  | dict (title : Option String) (filename : Option String)
  | nondict

/-- Raw element from the chunking service. Each field is `none` when the
corresponding key is absent. -/
structure RawElement where
  text : Option PyVal := none
  content : Option PyVal := none
  metadata : Option MetaVal := none
  type : Option String := none
  element_id : Option String := none
  category : Option String := none

/-- Python `x or y` for `PyVal` operands: `x` if truthy, else `y`. -/
def pyOrV (x y : PyVal) : PyVal :=
  if x.truthy then x else y

/-- Python `x or y` for string operands: `x` if non-empty, else `y`. -/
def pyOrS (x y : String) : String :=
  if x != "" then x else y

/-- Value of `element.get("text", "") or element.get("content", "")`. -/
def rawTextVal (e : RawElement) : PyVal :=
  pyOrV (e.text.getD (.vStr "")) (e.content.getD (.vStr ""))

/-- Text resolution of `filter_chunks`: take the `text` field with
fallback to `content`, join a list value with single spaces after
dropping falsy entries, then strip, yielding the empty string for a
falsy value. -/
def resolveText (e : RawElement) : String :=
  let t := rawTextVal e
  let t2 : PyVal :=
    match t with
    | .vList l => .vStr (String.intercalate " " ((l.filter PyVal.truthy).map pyStr))
    | other => other
  if t2.truthy then pyStrip (pyStr t2) else ""

/-- Chunk produced by `filter_chunks`: the cleaned element dict. The
`metadata` sub-dict is modelled as an association list to mirror the
`dict.get` lookups performed on it downstream. -/
structure Chunk where
  text : String
  keywords : List String
  title : String
  type : String
  metadata : List (String × String)
  deriving DecidableEq

/-- Title resolution of `filter_chunks`: `metadata.title` with fallback
to `metadata.filename` when the metadata value is a dict; when that is
empty, the first line of the text if it is shorter than 100 characters,
else the empty string. -/
def resolveTitle (e : RawElement) (text : String) : String :=
  let mtitle :=
    match e.metadata with
    | some (.dict title filename) => pyOrS (title.getD "") (filename.getD "")
    | _ => ""
  if mtitle = "" then
    let first_line := pyStrip (firstLineOf text)
    if first_line.length < 100 then first_line else ""
  else mtitle

/-- Source resolution of `filter_chunks`: `metadata.filename` when the
metadata value is a dict containing the key, else the configured
default document path. -/
def resolveSource (defaultPath : String) (e : RawElement) : String :=
  match e.metadata with
  | some (.dict _ filename) => filename.getD defaultPath
  | _ => defaultPath

/-- The cleaned element built by `filter_chunks` for a kept element:
text, keywords, title, type, and the metadata dict with the keys
`source`, `element_id` and `category` always present. -/
def processElement (defaultPath : String) (e : RawElement) : Chunk :=
  let text := resolveText e
  { text := text,
    keywords := extract_keywords text,
    title := resolveTitle e text,
    type := e.type.getD "unknown",
    metadata := [
      ("source", resolveSource defaultPath e),
      ("element_id", e.element_id.getD ""),
      ("category", e.category.getD "")] }

/-- Model of `filter_chunks`: keep, in order, every element whose
resolved text is non-empty and at least `minLen` characters long,
emitting its cleaned chunk. -/
def filter_chunks (defaultPath : String) (minLen : Nat) :
    List RawElement → List Chunk
  | [] => []
  | e :: es =>
    let text := resolveText e
    if text ≠ "" ∧ minLen ≤ text.length then
      processElement defaultPath e :: filter_chunks defaultPath minLen es
    else filter_chunks defaultPath minLen es

/-- Floating-point value as validated by `generate_embeddings`: only the
NaN / infinity classification and the finite payload matter to the
checks `np.isnan` and `np.isinf`. -/
inductive PyFloat where
  | nan
  | inf (neg : Bool)
  | finite (q : ℚ)
  deriving DecidableEq

/-- Model of `np.isnan`. -/
def PyFloat.isNaN : PyFloat → Bool
  | .nan => true
  | _ => false

/-- Model of `np.isinf`. -/
def PyFloat.isInf : PyFloat → Bool
  | .inf _ => true
  | _ => false

/-- Chunk with its embedding attached (`chunk["vector_field"] = embedding`
followed by `enriched_chunks.append(chunk)`). -/
structure EnrichedChunk where
  chunk : Chunk
  vector_field : List PyFloat
  deriving DecidableEq

/-- Model of `generate_embeddings`: for each chunk in order, call the
embedding provider on the chunk text; skip the chunk when the call
fails, when the returned vector does not have the configured dimension,
or when any component is NaN or infinite; otherwise attach the vector.
The provider is the external OpenAI call, modelled as a function from
the request text to a vector or an error. -/
def generate_embeddings (dim : Nat)
    (provider : String → Except String (List PyFloat)) :
    List Chunk → List EnrichedChunk
  | [] => []
  | chunk :: rest =>
    match provider chunk.text with
    | .error _ => generate_embeddings dim provider rest
    | .ok embedding =>
      if embedding.length ≠ dim then generate_embeddings dim provider rest
      else if embedding.any (fun v => v.isNaN || v.isInf) then
        generate_embeddings dim provider rest
      else { chunk := chunk, vector_field := embedding }
        :: generate_embeddings dim provider rest

/-- Document body sent to the index for one enriched chunk. -/
structure IndexDocument where
  content : String
  text : String
  page_content : String
  keywords : List String
  keywords_text : String
  title : String
  vector_field : List PyFloat
  metadata : List (String × String)
  type : String
  deriving DecidableEq

/-- Document assembly step of `index_to_opensearch`: the three aliased
content fields, keyword fields, title, vector, metadata, and the type
field (the `if "type" in chunk` guard always holds for chunks built by
`filter_chunks`, which the model mirrors by always carrying the
field). -/
def assembleDoc (c : EnrichedChunk) : IndexDocument :=
  { content := c.chunk.text,
    text := c.chunk.text,
    page_content := c.chunk.text,
    keywords := c.chunk.keywords,
    keywords_text := String.intercalate " " c.chunk.keywords,
    title := c.chunk.title,
    vector_field := c.vector_field,
    metadata := c.chunk.metadata,
    type := c.chunk.type }

/-- Bulk action for one document: target index, identity key, body. The
identity key is `chunk["metadata"].get("element_id", "support_chunk_" ++ i)`:
the stored `element_id` value when the key is present (which
`filter_chunks` always ensures), else the synthetic positional id. -/
def mkAction (indexName : String) (i : Nat) (c : EnrichedChunk) :
    String × String × IndexDocument :=
  (indexName,
   (c.chunk.metadata.lookup "element_id").getD ("support_chunk_" ++ toString i),
   assembleDoc c)

/-- The bulk action list of `index_to_opensearch`, one action per chunk
with its positional index. -/
def buildActions (indexName : String) (chunks : List EnrichedChunk) :
    List (String × String × IndexDocument) :=
  chunks.enum.map (fun p => mkAction indexName p.1 p.2)

/-- Identity keys of the bulk actions, in order. -/
def actionIds (indexName : String) (chunks : List EnrichedChunk) : List String :=
  (buildActions indexName chunks).map (fun a => a.2.1)

/-- Error value of one rejected document in the bulk response: a dict
holding an optional `reason`, or a non-dict value. -/
inductive BulkErrorVal where
  | dict (reason : Option String)
  | other (s : String)

/-- One rejected item of the bulk response, with the `_id` and `error`
entries of its `index` sub-dict, each possibly absent. -/
structure BulkFailedItem where
  id : Option String
  error : Option BulkErrorVal

/-- Reported identity key of a rejected item:
`error_info.get("_id", "unknown")`. -/
def itemId (it : BulkFailedItem) : String :=
  it.id.getD "unknown"

/-- Reported rejection reason of a rejected item:
`error_msg.get("reason", "unknown error")` when the error value is a
dict (also when the `error` key is absent, since the `.get` default is
the empty dict), else `str(error_msg)`. -/
def itemReason (it : BulkFailedItem) : String :=
  match it.error with
  | some (.dict r) => r.getD "unknown error"
  | some (.other s) => s
  | none => "unknown error"

/-- Run summary reported by `index_to_opensearch` after the bulk call. -/
structure IndexReport where
  succeeded : Nat
  failedCount : Nat
  sampledFailures : List (String × String)

/-- Report built from a completed bulk call: the accepted count, the
rejected count, and identity key with reason for the first 5 rejected
items. -/
def reportBulk (succ : Nat) (failed : List BulkFailedItem) : IndexReport :=
  { succeeded := succ,
    failedCount := failed.length,
    sampledFailures := (failed.take 5).map (fun it => (itemId it, itemReason it)) }

/-- Model of `index_to_opensearch`: assemble the bulk actions, submit
them through the bulk call (an external collaborator, modelled as a
function from the action list to a response or a transport error), and
either report counts and sampled failures or re-raise the error. -/
def index_to_opensearch (indexName : String) (chunks : List EnrichedChunk)
    (bulkCall : List (String × String × IndexDocument) →
      Except String (Nat × List BulkFailedItem)) :
    Except String IndexReport :=
  match bulkCall (buildActions indexName chunks) with
  | .error e => .error e
  | .ok (succ, failed) => .ok (reportBulk succ failed)

/-- Fixture chunk with a given text and no other content, for concrete
instantiations. -/
def plainChunk (t : String) : Chunk :=
  { text := t, keywords := [], title := "", type := "unknown", metadata := [] }

/-- Fixture embedding provider succeeding only on the text "good". -/
def goodProvider : String → Except String (List PyFloat) :=
  fun t => if t = "good" then .ok [.finite 1, .finite 2] else .error "x"

/-- Fixture bulk response items: two rejected documents. -/
def failedItemA : BulkFailedItem :=
  { id := some "doc-1", error := some (.dict (some "mapping error")) }

/-- Fixture rejected item with no id and a non-dict error value. -/
def failedItemB : BulkFailedItem :=
  { id := none, error := some (.other "boom") }

/-- Ranking order produced by the stable count sort: the left pair has
a strictly larger count, or an equal count and an earlier first
occurrence in the keyword occurrence list. -/
def rankLt (kws : List String) (a b : String × Nat) : Prop :=
  b.2 < a.2 ∨ (a.2 = b.2 ∧ kws.indexOf a.1 < kws.indexOf b.1)

/-- The last element of a non-empty list (with default) is a member. -/
theorem getLastD_mem_of_ne_nil (l : List Char) (d : Char) (h : l ≠ []) :
    l.getLastD d ∈ l := by
  induction l generalizing d with
  | nil => exact absurd rfl h
  | cons x xs ih =>
    cases hxs : xs with
    | nil => simp
    | cons y ys =>
      have hmem := ih (d := x) (by simp [hxs])
      rw [hxs] at hmem
      simpa using Or.inr hmem

/-- A predicate holding on a list also holds on its `dropLast`. -/
theorem all_dropLast {p : Char → Bool} {l : List Char} (h : l.all p = true) :
    l.dropLast.all p = true := by
  rw [List.all_eq_true] at h ⊢
  exact fun x hx => h x ((List.dropLast_sublist l).subset hx)

/-- Letters are word characters. -/
theorem isWordChar_of_isAlpha {c : Char} (h : c.isAlpha = true) :
    isWordChar c = true := by
  simp [isWordChar, Char.isAlphanum, h]

/-- An all-alphabetic list is all word characters. -/
theorem all_word_of_all_alpha {l : List Char} (h : l.all Char.isAlpha = true) :
    l.all isWordChar = true := by
  rw [List.all_eq_true] at h ⊢
  exact fun x hx => isWordChar_of_isAlpha (h x hx)

/-- Backtracking fails when the greedy run is all letters and the next
input character is a word character: every character given back is a
letter, so no trailing word boundary ever appears. -/
theorem tryShrink_none_of_blocked (run rest : List Char)
    (hall : run.all Char.isAlpha = true) (hb : boundaryOk rest = false) :
    tryShrink run rest = none := by
  rw [tryShrink.eq_def]
  by_cases h3 : run.length < 3
  · rw [dif_pos h3]
  · rw [dif_neg h3, if_neg (by simp [hb])]
    have hne : run ≠ [] := by
      intro hnil
      rw [hnil] at h3
      simp at h3
    have hla : Char.isAlpha (run.getLastD ' ') = true :=
      (List.all_eq_true.mp hall) _ (getLastD_mem_of_ne_nil run ' ' hne)
    have hb2 : boundaryOk (run.getLastD ' ' :: rest) = false := by
      show (!(isWordChar (run.getLastD ' '))) = false
      rw [isWordChar_of_isAlpha hla]
      rfl
    have hrec := tryShrink_none_of_blocked run.dropLast
        (run.getLastD ' ' :: rest) (all_dropLast hall) hb2
    rw [hrec]
termination_by run.length
decreasing_by
  rw [List.length_dropLast]
  omega

/-- Backtracking fails immediately when the greedy run is shorter
than 3. -/
theorem tryShrink_none_of_short (run rest : List Char)
    (h3 : run.length < 3) :
    tryShrink run rest = none := by
  rw [tryShrink.eq_def, dif_pos h3]

/-- The greedy run is accepted unchanged when it has length at least 3
and a word boundary follows. -/
theorem tryShrink_eq_some (run rest : List Char) (h3 : 3 ≤ run.length)
    (hb : boundaryOk rest = true) :
    tryShrink run rest = some ⟨(run, rest), h3, rfl⟩ := by
  rw [tryShrink.eq_def, dif_neg (by omega), if_pos hb]

/-- `takeWhile` passes over a prefix on which the predicate holds. -/
theorem takeWhile_append_all {p : Char → Bool} (l1 l2 : List Char)
    (h1 : l1.all p = true) :
    List.takeWhile p (l1 ++ l2) = l1 ++ List.takeWhile p l2 := by
  induction l1 with
  | nil => simp
  | cons x xs ih =>
    rw [List.all_cons, Bool.and_eq_true] at h1
    simp only [List.cons_append, List.takeWhile_cons, h1.1, if_true]
    rw [ih h1.2]

/-- `dropWhile` skips a prefix on which the predicate holds. -/
theorem dropWhile_append_all {p : Char → Bool} (l1 l2 : List Char)
    (h1 : l1.all p = true) :
    List.dropWhile p (l1 ++ l2) = List.dropWhile p l2 := by
  induction l1 with
  | nil => simp
  | cons x xs ih =>
    rw [List.all_cons, Bool.and_eq_true] at h1
    rw [List.cons_append, List.dropWhile_cons, if_pos h1.1, ih h1.2]

/-- With a word boundary in front, `takeWhile isWordChar` takes
nothing. -/
theorem takeWhile_word_of_boundary (l : List Char)
    (h : boundaryOk l = true) :
    List.takeWhile isWordChar l = [] := by
  cases l with
  | nil => rfl
  | cons d t =>
    have hd : isWordChar d = false := by
      have : (!(isWordChar d)) = true := h
      simpa using this
    rw [List.takeWhile_cons, if_neg (by simp [hd])]

/-- With a word boundary in front, `dropWhile isWordChar` drops
nothing. -/
theorem dropWhile_word_of_boundary (l : List Char)
    (h : boundaryOk l = true) :
    List.dropWhile isWordChar l = l := by
  cases l with
  | nil => rfl
  | cons d t =>
    have hd : isWordChar d = false := by
      have : (!(isWordChar d)) = true := h
      simpa using this
    rw [List.dropWhile_cons, if_neg (by simp [hd])]

/-- The suffix left by `dropWhile` is empty or starts with a failing
element. -/
theorem dropWhile_head_not (p : Char → Bool) (l : List Char) :
    List.dropWhile p l = [] ∨
      ∃ d t, List.dropWhile p l = d :: t ∧ p d = false := by
  induction l with
  | nil => exact Or.inl rfl
  | cons x xs ih =>
    by_cases hx : p x = true
    · rw [List.dropWhile_cons, if_pos hx]
      exact ih
    · refine Or.inr ⟨x, xs, ?_, by simpa using hx⟩
      rw [List.dropWhile_cons, if_neg hx]

/-- The accumulating run scanner with a non-empty current run closes
that run with the pending matching characters and continues. -/
theorem runsByGo_pos (p : Char → Bool) (l : List Char) :
    ∀ cur : List Char, cur ≠ [] →
      runsByGo p cur l
        = (cur.reverse ++ l.takeWhile p) :: runsByGo p [] (l.dropWhile p) := by
  induction l with
  | nil =>
    intro cur hcur
    rw [runsByGo, if_neg (by simpa using hcur)]
    rw [List.takeWhile_nil, List.dropWhile_nil, List.append_nil, runsByGo]
    rfl
  | cons c cs ih =>
    intro cur hcur
    by_cases hc : p c = true
    · rw [runsByGo, if_pos hc, ih (c :: cur) (List.cons_ne_nil c cur),
        List.takeWhile_cons, if_pos hc, List.dropWhile_cons, if_pos hc]
      simp
    · rw [runsByGo, if_neg hc, if_neg (by simpa using hcur),
        List.takeWhile_cons, if_neg hc, List.dropWhile_cons, if_neg hc,
        List.append_nil]
      rw [runsByGo, if_neg hc]
      rfl

/-- Unfolding equation of `runsBy` on the empty list. -/
theorem runsBy_nil (p : Char → Bool) : runsBy p [] = [] := rfl

/-- Unfolding equation of `runsBy` on a cons cell. -/
theorem runsBy_cons (p : Char → Bool) (c : Char) (cs : List Char) :
    runsBy p (c :: cs) =
      if p c then (c :: cs.takeWhile p) :: runsBy p (cs.dropWhile p)
      else runsBy p cs := by
  by_cases hc : p c = true
  · rw [if_pos hc, runsBy, runsByGo, if_pos hc,
      runsByGo_pos p cs [c] (List.cons_ne_nil c [])]
    rfl
  · rw [if_neg hc, runsBy, runsByGo, if_neg hc]
    rfl

/-- Unfolding equation of `findallAux` on the empty list. -/
theorem findallAux_nil (prev : Option Char) : findallAux prev [] = [] := by
  rw [findallAux.eq_def]

/-- Unfolding equation of `findallAux` on a cons cell. -/
theorem findallAux_cons (prev : Option Char) (c : Char) (rest : List Char) :
    findallAux prev (c :: rest) =
      if !(wordOpt prev) && c.isAlpha then
        match tryShrink ((c :: rest).takeWhile Char.isAlpha)
            ((c :: rest).dropWhile Char.isAlpha) with
        | some ⟨(run, remaining), _⟩ =>
            run :: findallAux (some (run.getLastD c)) remaining
        | none => findallAux (some c) rest
      else findallAux (some c) rest := by
  rw [findallAux.eq_def]

/-- Characterisation of the regex scan: starting after a word character
the scan first skips the pending word run, and in either case it emits
exactly the maximal word-character runs of the input that are entirely
alphabetic and have length at least 3. -/
theorem findallAux_eq_specTokens (prev : Option Char) (cs : List Char) :
    findallAux prev cs
      = specTokens (if wordOpt prev then cs.dropWhile isWordChar else cs) := by
  cases cs with
  | nil =>
    cases hw : wordOpt prev <;>
      simp [findallAux_nil, hw, specTokens, runsBy_nil, List.dropWhile_nil]
  | cons c rest =>
    rw [findallAux_cons]
    by_cases hw : wordOpt prev = true
    · -- the previous character is a word character: no boundary before c
      rw [hw]
      simp only [Bool.not_true, Bool.false_and, Bool.false_eq_true, if_false,
        if_true]
      have ih := findallAux_eq_specTokens (some c) rest
      by_cases hc : isWordChar c = true
      · rw [List.dropWhile_cons, if_pos hc, ih,
          if_pos (show wordOpt (some c) = true from hc)]
      · have hcf : isWordChar c = false := by simpa using hc
        rw [List.dropWhile_cons, if_neg (by simp [hcf]), ih,
          if_neg (show ¬ wordOpt (some c) = true by simp [hcf, wordOpt])]
        rw [specTokens, specTokens, runsBy_cons]
        simp [hcf]
    · -- boundary before c
      have hw0 : wordOpt prev = false := by simpa using hw
      rw [hw0]
      simp only [Bool.not_false, Bool.true_and, Bool.false_eq_true, if_false]
      by_cases hca : c.isAlpha = true
      · -- attempt a match at c
        rw [if_pos hca]
        have hcw : isWordChar c = true := isWordChar_of_isAlpha hca
        have hallA : ((c :: rest).takeWhile Char.isAlpha).all Char.isAlpha = true :=
          List.all_eq_true.mpr (fun x hx => List.mem_takeWhile_imp hx)
        have hallW : ((c :: rest).takeWhile Char.isAlpha).all isWordChar = true :=
          all_word_of_all_alpha hallA
        have hsplitA : (c :: rest).takeWhile Char.isAlpha
            ++ (c :: rest).dropWhile Char.isAlpha = c :: rest :=
          List.takeWhile_append_dropWhile Char.isAlpha (c :: rest)
        have htk : List.takeWhile isWordChar (c :: rest)
            = c :: List.takeWhile isWordChar rest := by
          rw [List.takeWhile_cons, if_pos hcw]
        have htd : List.dropWhile isWordChar (c :: rest)
            = List.dropWhile isWordChar rest := by
          rw [List.dropWhile_cons, if_pos hcw]
        by_cases hb : boundaryOk ((c :: rest).dropWhile Char.isAlpha) = true
        · -- a word boundary follows the alphabetic run
          have hW : List.takeWhile isWordChar (c :: rest)
              = (c :: rest).takeWhile Char.isAlpha := by
            conv_lhs => rw [← hsplitA]
            rw [takeWhile_append_all _ _ hallW,
              takeWhile_word_of_boundary _ hb, List.append_nil]
          have hD : List.dropWhile isWordChar (c :: rest)
              = (c :: rest).dropWhile Char.isAlpha := by
            conv_lhs => rw [← hsplitA]
            rw [dropWhile_append_all _ _ hallW,
              dropWhile_word_of_boundary _ hb]
          rw [htk] at hW
          rw [htd] at hD
          by_cases h3 : 3 ≤ ((c :: rest).takeWhile Char.isAlpha).length
          · -- the run is long enough: a token is emitted
            rw [tryShrink_eq_some _ _ h3 hb]
            dsimp only
            have hne0 : (c :: rest).takeWhile Char.isAlpha ≠ [] := by
              rw [List.takeWhile_cons, if_pos hca]
              exact List.cons_ne_nil _ _
            have hlastA : Char.isAlpha
                (((c :: rest).takeWhile Char.isAlpha).getLastD c) = true :=
              List.all_eq_true.mp hallA _ (getLastD_mem_of_ne_nil _ _ hne0)
            have ih := findallAux_eq_specTokens
              (some (((c :: rest).takeWhile Char.isAlpha).getLastD c))
              ((c :: rest).dropWhile Char.isAlpha)
            rw [ih, if_pos (show wordOpt (some (((c :: rest).takeWhile
                  Char.isAlpha).getLastD c)) = true
                from isWordChar_of_isAlpha hlastA),
              dropWhile_word_of_boundary _ hb]
            have htok : tokenOk ((c :: rest).takeWhile Char.isAlpha) = true := by
              simp [tokenOk, hallA, h3]
            have hspec : specTokens (c :: rest)
                = (c :: rest).takeWhile Char.isAlpha
                  :: List.filter tokenOk
                      (runsBy isWordChar ((c :: rest).dropWhile Char.isAlpha)) := by
              rw [specTokens, runsBy_cons, if_pos hcw, hW, hD, List.filter_cons,
                if_pos htok]
            rw [hspec, specTokens]
          · -- the run is too short: no token here
            rw [tryShrink_none_of_short _ _ (by omega)]
            dsimp only
            have ih := findallAux_eq_specTokens (some c) rest
            rw [ih, if_pos (show wordOpt (some c) = true from hcw)]
            have htokF : ¬ tokenOk (c :: List.takeWhile isWordChar rest) = true := by
              rw [hW]
              simp only [tokenOk, Bool.and_eq_true, decide_eq_true_eq]
              rintro ⟨-, hlen⟩
              omega
            rw [specTokens, specTokens, runsBy_cons, if_pos hcw,
              List.filter_cons, if_neg htokF]
        · -- the run is followed by a non-alphabetic word character
          have hbf : boundaryOk ((c :: rest).dropWhile Char.isAlpha) = false := by
            simpa using hb
          rw [tryShrink_none_of_blocked _ _ hallA hbf]
          dsimp only
          have ih := findallAux_eq_specTokens (some c) rest
          rw [ih, if_pos (show wordOpt (some c) = true from hcw)]
          rcases dropWhile_head_not Char.isAlpha (c :: rest)
            with hnil | ⟨d, t, hdt, hdna⟩
          · rw [hnil] at hbf
            simp [boundaryOk] at hbf
          · have hdw : isWordChar d = true := by
              rw [hdt] at hbf
              simpa [boundaryOk] using hbf
            have hWx : List.takeWhile isWordChar (c :: rest)
                = (c :: rest).takeWhile Char.isAlpha
                  ++ (d :: List.takeWhile isWordChar t) := by
              conv_lhs => rw [← hsplitA]
              rw [takeWhile_append_all _ _ hallW, hdt,
                List.takeWhile_cons isWordChar d t, if_pos hdw]
            have hdmem : d ∈ c :: List.takeWhile isWordChar rest := by
              rw [← htk, hWx]
              exact List.mem_append_right _ (List.mem_cons_self _ _)
            have htokF : ¬ tokenOk (c :: List.takeWhile isWordChar rest) = true := by
              simp only [tokenOk, Bool.and_eq_true, decide_eq_true_eq]
              rintro ⟨hall, -⟩
              rw [List.all_eq_true] at hall
              rw [hall d hdmem] at hdna
              cases hdna
            rw [specTokens, specTokens, runsBy_cons, if_pos hcw,
              List.filter_cons, if_neg htokF]
      · -- c is not a letter: no match attempt, advance
        have hcaf : c.isAlpha = false := by simpa using hca
        rw [hcaf]
        simp only [Bool.false_eq_true, if_false]
        have ih := findallAux_eq_specTokens (some c) rest
        by_cases hcw : isWordChar c = true
        · rw [ih, if_pos (show wordOpt (some c) = true from hcw)]
          have htokF : ¬ tokenOk (c :: List.takeWhile isWordChar rest) = true := by
            simp only [tokenOk, Bool.and_eq_true, decide_eq_true_eq]
            rintro ⟨hall, -⟩
            rw [List.all_eq_true] at hall
            have hcc := hall c (List.mem_cons_self _ _)
            rw [hcc] at hcaf
            cases hcaf
          rw [specTokens, specTokens, runsBy_cons, if_pos hcw,
            List.filter_cons, if_neg htokF]
        · have hcwf : isWordChar c = false := by simpa using hcw
          rw [ih, if_neg (show ¬ wordOpt (some c) = true by simp [hcwf, wordOpt])]
          rw [specTokens, specTokens, runsBy_cons]
          simp [hcwf]
termination_by cs.length
decreasing_by
  all_goals simp only [List.length_cons]
  all_goals
    first
      | exact Nat.lt_succ_self _
      | (rw [List.dropWhile_cons, if_pos hca]
         exact Nat.lt_succ_of_le (List.dropWhile_sublist _).length_le)

/-- Character order agrees with the order of code points. -/
theorem char_le_iff_toNat (a b : Char) : a ≤ b ↔ a.toNat ≤ b.toNat := by
  rw [Char.le_def, UInt32.le_def]
  exact Iff.rfl

/-- Code point of `Char.ofNat` at a valid code point. -/
theorem toNat_ofNat_valid (n : Nat) (hv : n.isValidChar) :
    (Char.ofNat n).toNat = n := by
  unfold Char.ofNat
  rw [dif_pos hv]
  rfl

/-- `Char.isLower` in terms of code points. -/
theorem isLower_iff_toNat (c : Char) :
    c.isLower = true ↔ 97 ≤ c.toNat ∧ c.toNat ≤ 122 := by
  unfold Char.isLower
  rw [Bool.and_eq_true, decide_eq_true_eq, decide_eq_true_eq]
  constructor
  · rintro ⟨h1, h2⟩
    rw [GE.ge, UInt32.le_def] at h1
    rw [UInt32.le_def] at h2
    exact ⟨h1, h2⟩
  · rintro ⟨h1, h2⟩
    constructor
    · rw [GE.ge, UInt32.le_def]
      exact h1
    · rw [UInt32.le_def]
      exact h2

/-- `Char.isUpper` in terms of code points. -/
theorem isUpper_iff_toNat (c : Char) :
    c.isUpper = true ↔ 65 ≤ c.toNat ∧ c.toNat ≤ 90 := by
  unfold Char.isUpper
  rw [Bool.and_eq_true, decide_eq_true_eq, decide_eq_true_eq]
  constructor
  · rintro ⟨h1, h2⟩
    rw [GE.ge, UInt32.le_def] at h1
    rw [UInt32.le_def] at h2
    exact ⟨h1, h2⟩
  · rintro ⟨h1, h2⟩
    constructor
    · rw [GE.ge, UInt32.le_def]
      exact h1
    · rw [UInt32.le_def]
      exact h2

/-- If the ASCII-lowered image of a character is a letter, it is a
lower-case letter. -/
theorem asciiLower_alpha_isLower (c : Char) (h : (asciiLower c).isAlpha = true) :
    (asciiLower c).isLower = true := by
  unfold asciiLower at h ⊢
  by_cases h0 : 'A' ≤ c ∧ c ≤ 'Z'
  · rw [if_pos h0]
    obtain ⟨h1, h2⟩ := h0
    rw [char_le_iff_toNat] at h1 h2
    have hv : (c.toNat + 32).isValidChar := Or.inl (by
      have : ('Z' : Char).toNat = 90 := rfl
      rw [this] at h2
      omega)
    rw [isLower_iff_toNat, toNat_ofNat_valid _ hv]
    have hA : ('A' : Char).toNat = 65 := rfl
    have hZ : ('Z' : Char).toNat = 90 := rfl
    rw [hA] at h1
    rw [hZ] at h2
    omega
  · rw [if_neg h0] at h ⊢
    unfold Char.isAlpha at h
    rw [Bool.or_eq_true] at h
    rcases h with hu | hl
    · exfalso
      rw [isUpper_iff_toNat] at hu
      apply h0
      constructor
      · rw [char_le_iff_toNat]
        exact hu.1
      · rw [char_le_iff_toNat]
        exact hu.2
    · exact hl

/-- Every character of a run produced by `runsBy` occurs in the input
list. -/
theorem mem_runsBy_subset (p : Char → Bool) (l : List Char) :
    ∀ r ∈ runsBy p l, ∀ a ∈ r, a ∈ l :=
  match l with
  | [] => by
    intro r hr
    rw [runsBy_nil] at hr
    exact absurd hr (List.not_mem_nil r)
  | c :: cs => by
    intro r hr
    rw [runsBy_cons] at hr
    by_cases hc : p c = true
    · rw [if_pos hc] at hr
      rcases List.mem_cons.mp hr with hhd | htl
      · intro a ha
        rw [hhd] at ha
        rcases List.mem_cons.mp ha with rfl | hmem
        · exact List.mem_cons_self _ _
        · exact List.mem_cons_of_mem _ ((List.takeWhile_sublist p).subset hmem)
      · intro a ha
        exact List.mem_cons_of_mem _
          ((List.dropWhile_sublist p).subset
            (mem_runsBy_subset p (cs.dropWhile p) r htl a ha))
    · rw [if_neg hc] at hr
      intro a ha
      exact List.mem_cons_of_mem _ (mem_runsBy_subset p cs r hr a ha)
termination_by l.length
decreasing_by
  · exact Nat.lt_succ_of_le (List.dropWhile_sublist p).length_le
  · exact Nat.lt_succ_self _

/-- The tokenizer, characterised: tokens are the maximal word-character
runs of the lowercased text that are entirely alphabetic and have
length at least 3. -/
theorem pyFindTokens_eq (text : String) :
    pyFindTokens text = (specTokens (text.data.map asciiLower)).map String.mk := by
  rw [pyFindTokens, findallAux_eq_specTokens]
  rfl

/-- Every token is made of lower-case letters and has length at
least 3. -/
theorem mem_pyFindTokens (text : String) (w : String)
    (hw : w ∈ pyFindTokens text) :
    (∀ c ∈ w.data, c.isLower = true) ∧ 3 ≤ w.length := by
  rw [pyFindTokens_eq] at hw
  rcases List.mem_map.mp hw with ⟨r, hr, rfl⟩
  rw [specTokens, List.mem_filter] at hr
  obtain ⟨hrm, hok⟩ := hr
  rw [tokenOk, Bool.and_eq_true, decide_eq_true_eq] at hok
  obtain ⟨hall, hlen⟩ := hok
  constructor
  · intro c hc
    have hcr : c ∈ r := hc
    have hcl : c ∈ text.data.map asciiLower :=
      mem_runsBy_subset isWordChar _ r hrm c hcr
    rcases List.mem_map.mp hcl with ⟨c0, -, rfl⟩
    exact asciiLower_alpha_isLower c0 (List.all_eq_true.mp hall _ hcr)
  · exact hlen

/-- List `contains` agrees with membership for strings. -/
theorem contains_iff_mem (l : List String) (a : String) :
    l.contains a = true ↔ a ∈ l :=
  List.elem_iff

/-- The first-occurrence scan only depends on the membership of the
seen set. -/
theorem firstUniqGo_congr (l : List String) :
    ∀ seen seen2 : List String, (∀ a : String, a ∈ seen ↔ a ∈ seen2) →
      firstUniqGo seen l = firstUniqGo seen2 l := by
  induction l with
  | nil => intro seen seen2 h; rfl
  | cons x xs ih =>
    intro seen seen2 h
    by_cases hx : seen.contains x = true
    · have hx2 : seen2.contains x = true :=
        (contains_iff_mem _ _).mpr ((h x).mp ((contains_iff_mem _ _).mp hx))
      rw [firstUniqGo, if_pos hx, firstUniqGo, if_pos hx2]
      exact ih seen seen2 h
    · have hx2 : ¬ seen2.contains x = true := fun hcon =>
        hx ((contains_iff_mem _ _).mpr ((h x).mpr ((contains_iff_mem _ _).mp hcon)))
      rw [firstUniqGo, if_neg hx, firstUniqGo, if_neg hx2]
      refine congrArg _ (ih (x :: seen) (x :: seen2) ?_)
      intro a
      simp [h a]

/-- Adding an element to the seen set is the same as filtering its
occurrences out of the input. -/
theorem firstUniqGo_insert (x : String) (l : List String) :
    ∀ seen : List String,
      firstUniqGo (x :: seen) l = firstUniqGo seen (l.filter (fun y => y != x)) := by
  induction l with
  | nil => intro seen; rfl
  | cons y ys ih =>
    intro seen
    by_cases hyx : y = x
    · subst hyx
      rw [List.filter_cons, if_neg (by simp)]
      have h1 : (y :: seen).contains y = true :=
        (contains_iff_mem _ _).mpr (List.mem_cons_self _ _)
      rw [firstUniqGo, if_pos h1]
      exact ih seen
    · rw [List.filter_cons, if_pos (by simp [hyx])]
      by_cases hys : seen.contains y = true
      · have h1 : (x :: seen).contains y = true :=
          (contains_iff_mem _ _).mpr
            (List.mem_cons_of_mem _ ((contains_iff_mem _ _).mp hys))
        rw [firstUniqGo, if_pos h1, firstUniqGo, if_pos hys]
        exact ih seen
      · have h1 : ¬ (x :: seen).contains y = true := by
          intro hcon
          rcases List.mem_cons.mp ((contains_iff_mem _ _).mp hcon) with h2 | h2
          · exact hyx h2
          · exact hys ((contains_iff_mem _ _).mpr h2)
        rw [firstUniqGo, if_neg h1, firstUniqGo, if_neg hys]
        refine congrArg _ ?_
        rw [firstUniqGo_congr ys (y :: x :: seen) (x :: y :: seen)
          (by intro a; constructor <;> (intro h; simpa [or_comm, or_left_comm] using h))]
        exact ih (y :: seen)

/-- Unfolding equation of `firstUniq` on the empty list. -/
theorem firstUniq_nil : firstUniq [] = [] := rfl

/-- Unfolding equation of `firstUniq` on a cons cell. -/
theorem firstUniq_cons (x : String) (xs : List String) :
    firstUniq (x :: xs) = x :: firstUniq (xs.filter (fun y => y != x)) := by
  rw [firstUniq, firstUniqGo, if_neg (by simp [List.contains])]
  exact congrArg _ (firstUniqGo_insert x xs [])

/-- `firstUniq` has the same members as its input. -/
theorem mem_firstUniq (l : List String) (a : String) :
    a ∈ firstUniq l ↔ a ∈ l :=
  match l with
  | [] => by rw [firstUniq_nil]
  | x :: xs => by
    rw [firstUniq_cons]
    constructor
    · intro h
      rcases List.mem_cons.mp h with rfl | h2
      · exact List.mem_cons_self _ _
      · have hmem := (mem_firstUniq (xs.filter (fun y => y != x)) a).mp h2
        exact List.mem_cons_of_mem _ (List.mem_of_mem_filter hmem)
    · intro h
      rcases List.mem_cons.mp h with rfl | h2
      · exact List.mem_cons_self _ _
      · by_cases hax : a = x
        · rw [hax]
          exact List.mem_cons_self _ _
        · refine List.mem_cons_of_mem _ ((mem_firstUniq _ a).mpr ?_)
          rw [List.mem_filter]
          exact ⟨h2, by simp [hax]⟩
termination_by l.length
decreasing_by
  all_goals exact Nat.lt_succ_of_le (List.length_filter_le _ _)

/-- `firstUniq` has no duplicates. -/
theorem firstUniq_nodup (l : List String) : (firstUniq l).Nodup :=
  match l with
  | [] => by
    rw [firstUniq_nil]
    exact List.nodup_nil
  | x :: xs => by
    rw [firstUniq_cons]
    refine List.nodup_cons.mpr ⟨?_, firstUniq_nodup _⟩
    intro hmem
    have hx := (mem_firstUniq _ x).mp hmem
    rw [List.mem_filter] at hx
    simp at hx
termination_by l.length
decreasing_by
  exact Nat.lt_succ_of_le (List.length_filter_le _ _)

/-- Inserting into the count-sorted accumulator is a permutation. -/
theorem insertByCount_perm (x : String × Nat) (l : List (String × Nat)) :
    (insertByCount x l).Perm (x :: l) := by
  induction l with
  | nil => exact List.Perm.refl _
  | cons y ys ih =>
    rw [insertByCount]
    by_cases h : y.2 < x.2
    · rw [if_pos h]
    · rw [if_neg h]
      exact ((List.Perm.cons y ih).trans (List.Perm.swap x y ys))

/-- The insertion fold is a permutation of accumulator plus input. -/
theorem sortFold_perm (l : List (String × Nat)) (acc : List (String × Nat)) :
    (l.foldl (fun a x => insertByCount x a) acc).Perm (acc ++ l) := by
  induction l generalizing acc with
  | nil => simp
  | cons x xs ih =>
    rw [List.foldl_cons]
    refine ((ih _).trans ?_)
    refine ((insertByCount_perm x acc).append_right xs).trans ?_
    exact List.perm_middle.symm

/-- The stable count sort permutes its input. -/
theorem sortByCount_perm (l : List (String × Nat)) : (sortByCount l).Perm l := by
  have h := sortFold_perm l []
  simpa [sortByCount] using h

/-- Computable form of the keyword occurrence list, through the
tokenizer characterisation. -/
theorem keywordOccurrences_eval (text : String) :
    keywordOccurrences text
      = ((specTokens (text.data.map asciiLower)).map String.mk).filter
          (fun w => !(stop_words.contains w)) := by
  rw [keywordOccurrences, pyFindTokens_eq]

/-- Computable form of `extract_keywords`, through the tokenizer
characterisation. -/
theorem extract_keywords_eval (text : String) :
    extract_keywords text
      = (most_common 20 (counterItems
          (((specTokens (text.data.map asciiLower)).map String.mk).filter
            (fun w => !(stop_words.contains w))))).map Prod.fst := by
  rw [extract_keywords, keywordOccurrences_eval]

/-- Every extracted keyword occurs in the keyword occurrence list. -/
theorem mem_extract_keywords (text : String) (w : String)
    (hw : w ∈ extract_keywords text) :
    w ∈ keywordOccurrences text := by
  rw [extract_keywords] at hw
  rcases List.mem_map.mp hw with ⟨p, hp, rfl⟩
  have hpS : p ∈ sortByCount (counterItems (keywordOccurrences text)) := by
    rw [most_common] at hp
    exact (List.take_sublist _ _).subset hp
  have hpI : p ∈ counterItems (keywordOccurrences text) :=
    (sortByCount_perm _).subset hpS
  rw [counterItems] at hpI
  rcases List.mem_map.mp hpI with ⟨v, hv, rfl⟩
  exact (mem_firstUniq _ _).mp hv

/-- Every keyword occurrence is a token and not a stop word. -/
theorem mem_keywordOccurrences (text : String) (w : String)
    (hw : w ∈ keywordOccurrences text) :
    w ∈ pyFindTokens text ∧ w ∉ stop_words := by
  rw [keywordOccurrences, List.mem_filter] at hw
  refine ⟨hw.1, fun hmem => ?_⟩
  have hcon := hw.2
  rw [Bool.not_eq_eq_eq_not, Bool.not_true] at hcon
  rw [← contains_iff_mem] at hmem
  rw [hmem] at hcon
  cases hcon

/-- C2: for every input text, the keyword extractor output has at most
20 entries, contains no duplicates, and every entry is entirely lower
case, has length at least 3, and is not in the stop-word set. -/
theorem C2_extract_keywords_guarantees (text : String) :
    (extract_keywords text).length ≤ 20 ∧
    (extract_keywords text).Nodup ∧
    ∀ w ∈ extract_keywords text,
      (∀ c ∈ w.data, c.isLower = true) ∧ 3 ≤ w.length ∧ w ∉ stop_words := by
  refine ⟨?_, ?_, ?_⟩
  · rw [extract_keywords, List.length_map, most_common, List.length_take]
    exact min_le_left _ _
  · have hperm : (sortByCount (counterItems (keywordOccurrences text))).Perm
        (counterItems (keywordOccurrences text)) := sortByCount_perm _
    have hkeys : ((counterItems (keywordOccurrences text)).map Prod.fst).Nodup := by
      have hid : (Prod.fst ∘ fun w => (w, List.count w (keywordOccurrences text)))
          = id := by
        funext w
        rfl
      rw [counterItems, List.map_map, hid, List.map_id]
      exact firstUniq_nodup (keywordOccurrences text)
    have hkeysS : ((sortByCount (counterItems (keywordOccurrences text))).map
        Prod.fst).Nodup := ((hperm.map Prod.fst).nodup_iff).mpr hkeys
    rw [extract_keywords, most_common]
    exact ((List.take_sublist _ _).map Prod.fst).nodup hkeysS
  · intro w hw
    have h1 := mem_extract_keywords text w hw
    have h2 := mem_keywordOccurrences text w h1
    have h3 := mem_pyFindTokens text w h2.1
    exact ⟨h3.1, h3.2, h2.2⟩

/-- C2 witness: the guarantees instantiated on a concrete text and the
concrete keyword "hello" of its output. -/
theorem C2_witness :
    (extract_keywords "Hello hello world").length ≤ 20 ∧
    (extract_keywords "Hello hello world").Nodup ∧
    ((∀ c ∈ ("hello" : String).data, c.isLower = true) ∧
      3 ≤ ("hello" : String).length ∧ ("hello" : String) ∉ stop_words) :=
  ⟨(C2_extract_keywords_guarantees "Hello hello world").1,
   (C2_extract_keywords_guarantees "Hello hello world").2.1,
   (C2_extract_keywords_guarantees "Hello hello world").2.2 "hello" (by
      rw [extract_keywords_eval]
      decide)⟩

/-- C3 counterexample: digits are word characters for the regex word
boundary, so the alphabetic run of "abc123" is not emitted as a token,
while the tokenizer described by the specification (every non-alphabetic
character a separator) would produce "abc"; consequently the keyword
output of "abc123" is empty. -/
theorem C3_counterexample :
    pyFindTokens "abc123" = [] ∧ specClaimedTokens "abc123" = ["abc"] ∧
    extract_keywords "abc123" = [] := by
  refine ⟨?_, by decide, ?_⟩
  · rw [pyFindTokens_eq]
    decide
  · rw [extract_keywords_eval]
    decide

/-- C3 (amended): for every input text, tokenization yields exactly the
maximal word-character runs (letters, digits, underscore) of the
lowercased text that consist entirely of alphabetic characters and have
length at least 3; an alphabetic run adjacent to a digit or underscore
is not produced, so "abc123" yields no token. -/
theorem C3_amended_tokenization (text : String) :
    pyFindTokens text
      = ((runsBy isWordChar (text.data.map asciiLower)).filter tokenOk).map
          String.mk := by
  rw [pyFindTokens_eq, specTokens]

/-- C7: the assembled document carries the chunk text under the three
aliased content fields, the chunk keywords, and the keywords joined by
single spaces (empty when there are no keywords). -/
theorem C7_assembleDoc_fields (ec : EnrichedChunk) :
    (assembleDoc ec).content = ec.chunk.text ∧
    (assembleDoc ec).text = ec.chunk.text ∧
    (assembleDoc ec).page_content = ec.chunk.text ∧
    (assembleDoc ec).keywords = ec.chunk.keywords ∧
    (assembleDoc ec).keywords_text = String.intercalate " " ec.chunk.keywords ∧
    (assembleDoc { ec with chunk := { ec.chunk with keywords := [] } }).keywords_text
      = "" :=
  ⟨rfl, rfl, rfl, rfl, rfl, rfl⟩

set_option maxRecDepth 8000 in
/-- C5: with a positive threshold, the chunk filter produces a chunk for
exactly those elements whose resolved text has length at least the
threshold (the boundary case is kept), and on the 50/150/100-character
scenario at threshold 100 exactly the 150- and 100-character chunks
remain, in order. -/
theorem C5_filter_threshold (defaultPath : String) (minLen : Nat)
    (hmin : 1 ≤ minLen) (es : List RawElement) :
    (filter_chunks defaultPath minLen es
      = (es.filter (fun e => decide (minLen ≤ (resolveText e).length))).map
          (processElement defaultPath)) ∧
    (filter_chunks "doc.md" 100
        [{ text := some (.vStr (String.mk (List.replicate 50 'a'))) },
         { text := some (.vStr (String.mk (List.replicate 150 'b'))) },
         { text := some (.vStr (String.mk (List.replicate 100 'c'))) }]).map
        (fun c => c.text.length) = [150, 100] := by
  constructor
  · induction es with
    | nil => rfl
    | cons e es ih =>
      simp only [filter_chunks, List.filter_cons]
      by_cases h : minLen ≤ (resolveText e).length
      · have hne : resolveText e ≠ "" := by
          intro hnil
          rw [hnil] at h
          have hlen0 : ("" : String).length = 0 := rfl
          rw [hlen0] at h
          omega
        rw [if_pos ⟨hne, h⟩, if_pos (by simpa using h), List.map_cons, ih]
      · rw [if_neg (fun hc => h hc.2), if_neg (by simpa using h), ih]
  · decide

/-- C5 witness: the threshold theorem applied at threshold 100, giving
the 50/150/100 scenario outcome. -/
theorem C5_witness :
    (filter_chunks "doc.md" 100
        [{ text := some (.vStr (String.mk (List.replicate 50 'a'))) },
         { text := some (.vStr (String.mk (List.replicate 150 'b'))) },
         { text := some (.vStr (String.mk (List.replicate 100 'c'))) }]).map
        (fun c => c.text.length) = [150, 100] :=
  (C5_filter_threshold "doc.md" 100 (by decide) []).2

/-- The chunk filter output is a sublist of the per-element chunk images,
hence ordered with discarded elements omitted. -/
theorem filter_chunks_sublist (defaultPath : String) (minLen : Nat)
    (es : List RawElement) :
    (filter_chunks defaultPath minLen es).Sublist
      (es.map (processElement defaultPath)) := by
  induction es with
  | nil => exact List.Sublist.refl _
  | cons e es ih =>
    simp only [filter_chunks, List.map_cons]
    by_cases h : resolveText e ≠ "" ∧ minLen ≤ (resolveText e).length
    · rw [if_pos h]
      exact List.Sublist.cons₂ _ ih
    · rw [if_neg h]
      exact List.Sublist.cons _ ih

/-- The surviving enriched chunks are a sublist of the input chunks, in
order. -/
theorem generate_embeddings_sublist (dim : Nat)
    (provider : String → Except String (List PyFloat)) (chunks : List Chunk) :
    ((generate_embeddings dim provider chunks).map EnrichedChunk.chunk).Sublist
      chunks := by
  induction chunks with
  | nil => exact List.Sublist.refl _
  | cons c cs ih =>
    simp only [generate_embeddings]
    cases hpr : provider c.text with
    | error e =>
      exact List.Sublist.cons _ ih
    | ok emb =>
      dsimp only
      by_cases h1 : emb.length ≠ dim
      · rw [if_pos h1]
        exact List.Sublist.cons _ ih
      · rw [if_neg h1]
        by_cases h2 : emb.any (fun v => v.isNaN || v.isInf) = true
        · rw [if_pos h2]
          exact List.Sublist.cons _ ih
        · rw [if_neg h2, List.map_cons]
          exact List.Sublist.cons₂ _ ih

/-- C8: the chunk filter output is the ordered subsequence of surviving
per-element chunks, and the embedding enricher preserves the relative
order of surviving chunks and never lengthens the sequence. -/
theorem C8_order_preservation (defaultPath : String) (minLen : Nat)
    (es : List RawElement) (dim : Nat)
    (provider : String → Except String (List PyFloat)) (chunks : List Chunk) :
    (filter_chunks defaultPath minLen es).Sublist
        (es.map (processElement defaultPath)) ∧
    ((generate_embeddings dim provider chunks).map EnrichedChunk.chunk).Sublist
        chunks ∧
    (generate_embeddings dim provider chunks).length ≤ chunks.length := by
  refine ⟨filter_chunks_sublist defaultPath minLen es,
    generate_embeddings_sublist dim provider chunks, ?_⟩
  have h := (generate_embeddings_sublist dim provider chunks).length_le
  rw [List.length_map] at h
  exact h

/-- C6: every enriched chunk carries a vector of exactly the configured
dimension whose components are all finite and which is exactly the
provider response for the chunk text; and every input chunk with a
valid provider response survives into the output, so invalid chunks are
dropped without stopping the run. -/
theorem C6_embedding_validation (dim : Nat)
    (provider : String → Except String (List PyFloat)) (chunks : List Chunk) :
    (∀ ec ∈ generate_embeddings dim provider chunks,
        ec.vector_field.length = dim ∧
        (∀ v ∈ ec.vector_field, v.isNaN = false ∧ v.isInf = false) ∧
        provider ec.chunk.text = .ok ec.vector_field) ∧
    (∀ c ∈ chunks, ∀ emb : List PyFloat,
        provider c.text = .ok emb → emb.length = dim →
        (∀ v ∈ emb, v.isNaN = false ∧ v.isInf = false) →
        ({ chunk := c, vector_field := emb } : EnrichedChunk)
          ∈ generate_embeddings dim provider chunks) := by
  induction chunks with
  | nil =>
    constructor
    · intro ec hec
      exact absurd hec (List.not_mem_nil ec)
    · intro c hc
      exact absurd hc (List.not_mem_nil c)
  | cons c cs ih =>
    constructor
    · intro ec hec
      rw [generate_embeddings] at hec
      cases hpr : provider c.text with
      | error e =>
        rw [hpr] at hec
        exact ih.1 ec hec
      | ok emb =>
        rw [hpr] at hec
        dsimp only at hec
        by_cases h1 : emb.length ≠ dim
        · rw [if_pos h1] at hec
          exact ih.1 ec hec
        · rw [if_neg h1] at hec
          by_cases h2 : emb.any (fun v => v.isNaN || v.isInf) = true
          · rw [if_pos h2] at hec
            exact ih.1 ec hec
          · rw [if_neg h2] at hec
            rcases List.mem_cons.mp hec with rfl | htl
            · refine ⟨by simpa using h1, ?_, by simpa using hpr⟩
              intro v hv
              rw [List.any_eq_true] at h2
              push_neg at h2
              have hb := h2 v hv
              simp only [Bool.or_eq_true, not_or, Bool.not_eq_true] at hb
              rw [Bool.or_eq_false_iff] at hb
              exact hb
            · exact ih.1 ec htl
    · intro c0 hc0 emb hpr0 hlen hfin
      rcases List.mem_cons.mp hc0 with rfl | htl
      · rw [generate_embeddings, hpr0]
        dsimp only
        rw [if_neg (by simpa using hlen)]
        have h2 : emb.any (fun v => v.isNaN || v.isInf) = false := by
          rw [List.any_eq_false]
          intro v hv
          have hb := hfin v hv
          simp [hb.1, hb.2]
        rw [if_neg (by simp [h2])]
        exact List.mem_cons_self _ _
      · have hrec := ih.2 c0 htl emb hpr0 hlen hfin
        rw [generate_embeddings]
        cases hpr : provider c.text with
        | error e =>
          exact hrec
        | ok emb2 =>
          dsimp only
          by_cases h1 : emb2.length ≠ dim
          · rw [if_pos h1]
            exact hrec
          · rw [if_neg h1]
            by_cases h2 : emb2.any (fun v => v.isNaN || v.isInf) = true
            · rw [if_pos h2]
              exact hrec
            · rw [if_neg h2]
              exact List.mem_cons_of_mem _ hrec

/-- C6 witness: with dimension 2 and a provider that answers only for
the text "good", the chunk with text "good" survives with its vector
while the chunk with text "bad" is dropped, and the surviving vector
has dimension 2 with finite entries. -/
theorem C6_witness :
    ({ chunk := plainChunk "good", vector_field := [.finite 1, .finite 2] }
        : EnrichedChunk)
      ∈ generate_embeddings 2 goodProvider [plainChunk "good", plainChunk "bad"] ∧
    generate_embeddings 2 goodProvider [plainChunk "good", plainChunk "bad"]
      = [{ chunk := plainChunk "good", vector_field := [.finite 1, .finite 2] }] :=
  ⟨(C6_embedding_validation 2 goodProvider [plainChunk "good", plainChunk "bad"]).2
      (plainChunk "good") (by decide) [.finite 1, .finite 2]
      rfl (by decide) (by decide),
   by decide⟩

/-- C9: after a completed bulk call the indexer reports the accepted
count, the rejected count, and identity key with reason for at most the
first 5 rejected items; a total failure of the bulk call propagates to
the caller unchanged. -/
theorem C9_bulk_report (indexName : String) (chunks : List EnrichedChunk)
    (bulkCall : List (String × String × IndexDocument) →
      Except String (Nat × List BulkFailedItem)) :
    (∀ e : String, bulkCall (buildActions indexName chunks) = .error e →
        index_to_opensearch indexName chunks bulkCall = .error e) ∧
    (∀ (succ : Nat) (failed : List BulkFailedItem),
        bulkCall (buildActions indexName chunks) = .ok (succ, failed) →
        index_to_opensearch indexName chunks bulkCall
            = .ok (reportBulk succ failed) ∧
          (reportBulk succ failed).succeeded = succ ∧
          (reportBulk succ failed).failedCount = failed.length ∧
          (reportBulk succ failed).sampledFailures.length = min 5 failed.length ∧
          ∀ (k : Nat) (hk : k < (reportBulk succ failed).sampledFailures.length)
            (hk2 : k < failed.length),
            (reportBulk succ failed).sampledFailures.get ⟨k, hk⟩
              = (itemId (failed.get ⟨k, hk2⟩), itemReason (failed.get ⟨k, hk2⟩))) := by
  constructor
  · intro e he
    rw [index_to_opensearch, he]
  · intro succ failed hok
    refine ⟨by rw [index_to_opensearch, hok], rfl, rfl, ?_, ?_⟩
    · simp [reportBulk, List.length_take]
    · intro k hk hk2
      simp only [reportBulk] at hk ⊢
      rw [List.get_eq_getElem, List.getElem_map, List.getElem_take]
      rfl

/-- C9 witness: the report theorem applied to a bulk call answering
8 accepted and 2 rejected items. -/
theorem C9_witness :
    index_to_opensearch "lexora_support" []
        (fun _ => .ok (8, [failedItemA, failedItemB]))
      = .ok (reportBulk 8 [failedItemA, failedItemB]) ∧
    (reportBulk 8 [failedItemA, failedItemB]).succeeded = 8 ∧
    (reportBulk 8 [failedItemA, failedItemB]).failedCount = 2 ∧
    (reportBulk 8 [failedItemA, failedItemB]).sampledFailures
      = [("doc-1", "mapping error"), ("unknown", "boom")] := by
  have h := (C9_bulk_report "lexora_support" []
      (fun _ => .ok (8, [failedItemA, failedItemB]))).2 8
      [failedItemA, failedItemB] rfl
  exact ⟨h.1, h.2.1, h.2.2.1.trans rfl, rfl⟩

/-- C10: a present-but-falsy text field (empty string, empty list or
None) falls back to the content field exactly as an absent text key
does, and a non-empty list value resolves to its truthy entries joined
by single spaces, stripped. -/
theorem C10_text_resolution (e : RawElement) (v : PyVal) (l : List PyVal)
    (hv : v.truthy = false) (hl : l ≠ []) :
    resolveText { e with text := some v } = resolveText { e with text := none } ∧
    resolveText { e with text := some (.vList l) }
      = pyStrip (String.intercalate " " ((l.filter PyVal.truthy).map pyStr)) := by
  constructor
  · have h1 : rawTextVal { e with text := some v }
        = rawTextVal { e with text := none } := by
      simp only [rawTextVal, pyOrV, Option.getD_some]
      rw [if_neg (by simp [hv]), if_neg (by decide)]
    simp only [resolveText]
    rw [h1]
  · have h2 : rawTextVal { e with text := some (.vList l) } = .vList l := by
      simp only [rawTextVal, pyOrV, Option.getD_some]
      rw [if_pos (by simp [PyVal.truthy, hl])]
    simp only [resolveText]
    rw [h2]
    dsimp only
    by_cases hj : String.intercalate " " ((l.filter PyVal.truthy).map pyStr) = ""
    · rw [hj]
      rw [if_neg (by decide)]
      rfl
    · rw [if_pos (by simp [PyVal.truthy, hj])]
      rfl

/-- C10 witness: the resolution theorem applied to an element whose text
field is present but empty and falls back to content, and to a list
value whose falsy entries are dropped before joining. -/
theorem C10_witness :
    resolveText { text := some (.vStr ""), content := some (.vStr " fallback ") }
      = resolveText { text := none, content := some (.vStr " fallback ") } ∧
    resolveText { ({ content := some (.vStr " fallback ") } : RawElement) with
        text := some (.vList [.vStr "ab", .vNone, .vStr "", .vStr "cd"]) }
      = pyStrip (String.intercalate " "
          (([PyVal.vStr "ab", .vNone, .vStr "", .vStr "cd"].filter
            PyVal.truthy).map pyStr)) :=
  ⟨(C10_text_resolution { content := some (.vStr " fallback ") } (.vStr "")
      [.vStr "ab", .vNone, .vStr "", .vStr "cd"] (by decide)
      (List.cons_ne_nil _ _)).1,
   (C10_text_resolution { content := some (.vStr " fallback ") } (.vStr "")
      [.vStr "ab", .vNone, .vStr "", .vStr "cd"] (by decide)
      (List.cons_ne_nil _ _)).2⟩

set_option maxRecDepth 8000 in
/-- C1 (code bug): in a run over two elements that both lack an
element id, `filter_chunks` stores the empty string under the
`element_id` key, so the `dict.get` fallback `support_chunk_i` never
fires and both bulk actions receive the identity key ""; the identity
keys of the run are not pairwise distinct. -/
theorem C1_element_id_collision :
    actionIds "lexora_support"
        (generate_embeddings 1536
          (fun _ => .ok (List.replicate 1536 (.finite 0)))
          (filter_chunks "LEXORA_SUPPORT_KNOWLEDGE_BASE.md" 100
            [{ text := some (.vStr (String.mk (List.replicate 100 'a'))) },
             { text := some (.vStr (String.mk (List.replicate 100 'b'))) }]))
      = ["", ""] ∧
    ¬ (["", ""] : List String).Nodup := by
  exact ⟨by decide, by decide⟩

/-- Filtering preserves the relative order of first occurrences. -/
theorem indexOf_filter_lt (p : String → Bool) (l : List String) (a b : String)
    (ha : a ∈ l.filter p) (hb : b ∈ l.filter p)
    (hab : (l.filter p).indexOf a < (l.filter p).indexOf b) :
    l.indexOf a < l.indexOf b := by
  induction l with
  | nil => simp at ha
  | cons y ys ih =>
    rw [List.filter_cons] at ha hb hab
    by_cases hy : p y = true
    · rw [if_pos hy] at ha hb hab
      by_cases hay : a = y
      · subst hay
        have hba : b ≠ a := by
          intro hba
          subst hba
          exact Nat.lt_irrefl _ hab
        rw [List.indexOf_cons_self]
        rw [List.indexOf_cons_ne _ (fun h => hba h.symm)]
        exact Nat.succ_pos _
      · by_cases hby : b = y
        · subst hby
          rw [List.indexOf_cons_self] at hab
          exact absurd hab (Nat.not_lt_zero _)
        · have ha2 : a ∈ ys.filter p := by
            rcases List.mem_cons.mp ha with h | h
            · exact absurd h hay
            · exact h
          have hb2 : b ∈ ys.filter p := by
            rcases List.mem_cons.mp hb with h | h
            · exact absurd h hby
            · exact h
          rw [List.indexOf_cons_ne _ (fun h => hay h.symm),
            List.indexOf_cons_ne _ (fun h => hby h.symm)] at hab
          rw [List.indexOf_cons_ne _ (fun h => hay h.symm),
            List.indexOf_cons_ne _ (fun h => hby h.symm)]
          exact Nat.succ_lt_succ (ih ha2 hb2 (Nat.lt_of_succ_lt_succ hab))
    · rw [if_neg hy] at ha hb hab
      have hay : a ≠ y := by
        intro h
        subst h
        exact hy (List.mem_filter.mp ha).2
      have hby : b ≠ y := by
        intro h
        subst h
        exact hy (List.mem_filter.mp hb).2
      rw [List.indexOf_cons_ne _ (fun h => hay h.symm),
        List.indexOf_cons_ne _ (fun h => hby h.symm)]
      exact Nat.succ_lt_succ (ih ha hb hab)

/-- The first-occurrence list is strictly increasing in first-occurrence
position. -/
theorem firstUniq_pairwise_indexOf (l : List String) :
    (firstUniq l).Pairwise (fun a b => l.indexOf a < l.indexOf b) :=
  match l with
  | [] => by
    rw [firstUniq_nil]
    exact List.Pairwise.nil
  | x :: xs => by
    rw [firstUniq_cons]
    refine List.pairwise_cons.mpr ⟨?_, ?_⟩
    · intro b hb
      have hbf := (mem_firstUniq _ _).mp hb
      have hbne : b ≠ x := by
        have h2 := (List.mem_filter.mp hbf).2
        simpa using h2
      rw [List.indexOf_cons_self, List.indexOf_cons_ne _ (fun h => hbne h.symm)]
      exact Nat.succ_pos _
    · have hrec := firstUniq_pairwise_indexOf (xs.filter (fun y => y != x))
      refine List.Pairwise.imp_of_mem ?_ hrec
      intro a b ha hb hab
      have haf := (mem_firstUniq _ _).mp ha
      have hbf := (mem_firstUniq _ _).mp hb
      have hane : a ≠ x := by
        have h2 := (List.mem_filter.mp haf).2
        simpa using h2
      have hbne : b ≠ x := by
        have h2 := (List.mem_filter.mp hbf).2
        simpa using h2
      have hxs := indexOf_filter_lt _ xs a b haf hbf hab
      rw [List.indexOf_cons_ne _ (fun h => hane h.symm),
        List.indexOf_cons_ne _ (fun h => hbne h.symm)]
      exact Nat.succ_lt_succ hxs
termination_by l.length
decreasing_by
  exact Nat.lt_succ_of_le (List.length_filter_le _ _)

/-- The counter items are strictly increasing in first-occurrence
position. -/
theorem counterItems_pairwise_indexOf (kws : List String) :
    (counterItems kws).Pairwise
      (fun a b => kws.indexOf a.1 < kws.indexOf b.1) := by
  rw [counterItems]
  exact List.Pairwise.map _ (fun a b h => h) (firstUniq_pairwise_indexOf kws)

/-- The count recorded in a counter item is the count of its key. -/
theorem mem_counterItems_snd (kws : List String) (p : String × Nat)
    (hp : p ∈ counterItems kws) : p.2 = kws.count p.1 := by
  rw [counterItems] at hp
  rcases List.mem_map.mp hp with ⟨w, -, rfl⟩
  rfl

/-- Inserting a pair whose first occurrence is later than everything in
the accumulator preserves the ranking order: the pair is placed after
all pairs with a greater or equal count and before all pairs with a
smaller count. -/
theorem pairwise_insertByCount (kws : List String) (x : String × Nat)
    (acc : List (String × Nat))
    (hacc : acc.Pairwise (rankLt kws))
    (hidx : ∀ y ∈ acc, x.2 = y.2 → kws.indexOf y.1 < kws.indexOf x.1) :
    (insertByCount x acc).Pairwise (rankLt kws) := by
  induction acc with
  | nil => exact List.pairwise_singleton _ _
  | cons y ys ih =>
    rw [insertByCount]
    rw [List.pairwise_cons] at hacc
    obtain ⟨hy, hys⟩ := hacc
    by_cases h : y.2 < x.2
    · rw [if_pos h]
      refine List.pairwise_cons.mpr ⟨?_, List.pairwise_cons.mpr ⟨hy, hys⟩⟩
      intro z hz
      rcases List.mem_cons.mp hz with rfl | hzys
      · exact Or.inl h
      · rcases hy z hzys with h2 | ⟨h2, -⟩
        · exact Or.inl (lt_trans h2 h)
        · exact Or.inl (h2 ▸ h)
    · rw [if_neg h]
      refine List.pairwise_cons.mpr
        ⟨?_, ih hys (fun z hz he => hidx z (List.mem_cons_of_mem _ hz) he)⟩
      intro z hz
      have hz2 := (insertByCount_perm x ys).mem_iff.mp hz
      rcases List.mem_cons.mp hz2 with heq0 | hzys
      · subst heq0
        rcases Nat.lt_or_ge z.2 y.2 with hlt | hge
        · exact Or.inl hlt
        · have heq : z.2 = y.2 := Nat.le_antisymm (Nat.le_of_not_lt h) hge
          exact Or.inr ⟨heq.symm, hidx y (List.mem_cons_self _ _) heq⟩
      · exact hy z hzys

/-- The insertion fold preserves the ranking order when the pending
items have strictly later first occurrences than the accumulator and
are themselves in first-occurrence order. -/
theorem pairwise_sortFold (kws : List String) (items : List (String × Nat)) :
    ∀ acc : List (String × Nat), acc.Pairwise (rankLt kws) →
      (∀ y ∈ acc, ∀ x ∈ items, kws.indexOf y.1 < kws.indexOf x.1) →
      items.Pairwise (fun a b => kws.indexOf a.1 < kws.indexOf b.1) →
      (items.foldl (fun a x => insertByCount x a) acc).Pairwise (rankLt kws) := by
  induction items with
  | nil =>
    intro acc hacc _ _
    exact hacc
  | cons x xs ih =>
    intro acc hacc hcross hitems
    rw [List.foldl_cons]
    rw [List.pairwise_cons] at hitems
    refine ih (insertByCount x acc) ?_ ?_ hitems.2
    · refine pairwise_insertByCount kws x acc hacc ?_
      intro y hy _
      exact hcross y hy x (List.mem_cons_self _ _)
    · intro y hy z hz
      rcases List.mem_cons.mp ((insertByCount_perm x acc).mem_iff.mp hy)
        with rfl | hyacc
      · exact hitems.1 z hz
      · exact hcross y hyacc z (List.mem_cons_of_mem _ hz)

/-- The stable count sort output is ordered by descending count with
ties in first-occurrence order. -/
theorem sortByCount_pairwise (kws : List String) :
    (sortByCount (counterItems kws)).Pairwise (rankLt kws) := by
  rw [sortByCount]
  refine pairwise_sortFold kws (counterItems kws) [] List.Pairwise.nil ?_
    (counterItems_pairwise_indexOf kws)
  intro y hy
  exact absurd hy (List.not_mem_nil y)

/-- C4: the extractor returns the 20 most frequent non-stop-word
tokens: counts are non-increasing along the output, a count tie is
ordered by earlier first occurrence in the token stream, every keyword
occurrence left out has a count at most that of every selected keyword,
and the output length is the number of distinct keywords capped
at 20. -/
theorem C4_ranking (text : String) :
    (∀ i j : Fin (extract_keywords text).length, i < j →
        (keywordOccurrences text).count ((extract_keywords text).get j)
            ≤ (keywordOccurrences text).count ((extract_keywords text).get i) ∧
          ((keywordOccurrences text).count ((extract_keywords text).get i)
              = (keywordOccurrences text).count ((extract_keywords text).get j) →
            (keywordOccurrences text).indexOf ((extract_keywords text).get i)
              < (keywordOccurrences text).indexOf ((extract_keywords text).get j))) ∧
    (∀ w ∈ keywordOccurrences text, w ∉ extract_keywords text →
        ∀ v ∈ extract_keywords text,
          (keywordOccurrences text).count w ≤ (keywordOccurrences text).count v) ∧
    (extract_keywords text).length
      = min 20 (firstUniq (keywordOccurrences text)).length := by
  have hPw : (sortByCount (counterItems (keywordOccurrences text))).Pairwise
      (rankLt (keywordOccurrences text)) := sortByCount_pairwise _
  have hcnt : ∀ p ∈ sortByCount (counterItems (keywordOccurrences text)),
      p.2 = (keywordOccurrences text).count p.1 := fun p hp =>
    mem_counterItems_snd _ p ((sortByCount_perm _).subset hp)
  have hks : extract_keywords text
      = ((sortByCount (counterItems (keywordOccurrences text))).take 20).map
          Prod.fst := by
    rw [extract_keywords, most_common]
  have hTpw : ((sortByCount (counterItems (keywordOccurrences text))).take
      20).Pairwise (rankLt (keywordOccurrences text)) :=
    List.Pairwise.sublist (List.take_sublist _ _) hPw
  refine ⟨?_, ?_, ?_⟩
  · have hksPw : (extract_keywords text).Pairwise (fun u v =>
        (keywordOccurrences text).count v ≤ (keywordOccurrences text).count u ∧
        ((keywordOccurrences text).count u = (keywordOccurrences text).count v →
          (keywordOccurrences text).indexOf u
            < (keywordOccurrences text).indexOf v)) := by
      rw [hks, List.pairwise_map]
      refine List.Pairwise.imp_of_mem ?_ hTpw
      intro a b ha hb hr
      have hca := hcnt a ((List.take_sublist _ _).subset ha)
      have hcb := hcnt b ((List.take_sublist _ _).subset hb)
      constructor
      · rcases hr with h2 | ⟨h2, -⟩
        · rw [← hca, ← hcb]
          exact Nat.le_of_lt h2
        · rw [← hca, ← hcb]
          exact Nat.le_of_eq h2.symm
      · intro hceq
        rcases hr with h2 | ⟨-, h3⟩
        · exfalso
          rw [← hca, ← hcb] at hceq
          omega
        · exact h3
    intro i j hij
    exact (List.pairwise_iff_get.mp hksPw) i j hij
  · intro w hw hwout v hv
    have hwitem : (w, (keywordOccurrences text).count w)
        ∈ counterItems (keywordOccurrences text) := by
      rw [counterItems]
      exact List.mem_map.mpr ⟨w, (mem_firstUniq _ _).mpr hw, rfl⟩
    have hwS : (w, (keywordOccurrences text).count w)
        ∈ sortByCount (counterItems (keywordOccurrences text)) :=
      (sortByCount_perm _).symm.subset hwitem
    have hwT : (w, (keywordOccurrences text).count w)
        ∉ (sortByCount (counterItems (keywordOccurrences text))).take 20 := by
      intro hmem
      apply hwout
      rw [hks]
      exact List.mem_map.mpr ⟨_, hmem, rfl⟩
    have hwD : (w, (keywordOccurrences text).count w)
        ∈ (sortByCount (counterItems (keywordOccurrences text))).drop 20 := by
      rw [← List.take_append_drop 20
        (sortByCount (counterItems (keywordOccurrences text)))] at hwS
      rcases List.mem_append.mp hwS with h | h
      · exact absurd h hwT
      · exact h
    rw [hks] at hv
    rcases List.mem_map.mp hv with ⟨pv, hpvT, rfl⟩
    have hPw2 := hPw
    rw [← List.take_append_drop 20
      (sortByCount (counterItems (keywordOccurrences text)))] at hPw2
    have hcross := (List.pairwise_append.mp hPw2).2.2 pv hpvT _ hwD
    have hcv := hcnt pv ((List.take_sublist _ _).subset hpvT)
    rcases hcross with h2 | ⟨h2, -⟩
    · rw [hcv] at h2
      exact Nat.le_of_lt h2
    · rw [hcv] at h2
      exact Nat.le_of_eq h2.symm
  · rw [hks, List.length_map, List.length_take,
      (sortByCount_perm _).length_eq, counterItems, List.length_map]

/-- C4 witness: on the text "bbb ccc bbb ddd" the selected keywords are
"bbb", "ccc", "ddd"; positions 1 and 2 have equal counts and are ordered
by earlier first occurrence. -/
theorem C4_witness :
    (keywordOccurrences "bbb ccc bbb ddd").count
        ((extract_keywords "bbb ccc bbb ddd").get
          ⟨2, by rw [extract_keywords_eval]; decide⟩)
      ≤ (keywordOccurrences "bbb ccc bbb ddd").count
          ((extract_keywords "bbb ccc bbb ddd").get
            ⟨1, by rw [extract_keywords_eval]; decide⟩) ∧
    (keywordOccurrences "bbb ccc bbb ddd").indexOf
        ((extract_keywords "bbb ccc bbb ddd").get
          ⟨1, by rw [extract_keywords_eval]; decide⟩)
      < (keywordOccurrences "bbb ccc bbb ddd").indexOf
          ((extract_keywords "bbb ccc bbb ddd").get
            ⟨2, by rw [extract_keywords_eval]; decide⟩) := by
  have h := (C4_ranking "bbb ccc bbb ddd").1
      ⟨1, by rw [extract_keywords_eval]; decide⟩
      ⟨2, by rw [extract_keywords_eval]; decide⟩
      (by decide)
  have he : extract_keywords "bbb ccc bbb ddd" = ["bbb", "ccc", "ddd"] := by
    rw [extract_keywords_eval]
    decide
  have hg1 : (extract_keywords "bbb ccc bbb ddd").get
      ⟨1, by rw [extract_keywords_eval]; decide⟩ = "ccc" := by
    rw [List.get_of_eq he]
    rfl
  have hg2 : (extract_keywords "bbb ccc bbb ddd").get
      ⟨2, by rw [extract_keywords_eval]; decide⟩ = "ddd" := by
    rw [List.get_of_eq he]
    rfl
  refine ⟨h.1, h.2 ?_⟩
  rw [hg1, hg2, keywordOccurrences_eval]
  decide
